import Mathlib

/-!
Verification of the `github-env` audit (`src/audit/github_env.rs`): the
embedded-script detector that flags writes of attacker-influenceable data
into the `GITHUB_ENV` environment-propagation file.

The Rust code parses bash and powershell scripts with tree-sitter and runs
structural queries over the resulting syntax trees; `cmd` scripts are
checked with a single regular expression.  The embedding below models
syntax trees as a `Node` inductive, translates each tree-sitter query
string from the source into an executable match function over such trees,
translates the `GITHUB_ENV_WRITE_CMD` regular expression into a positional
matcher over character lists, and reproduces the detector and rule-adapter
control flow (`bash_uses_github_env`, `pwsh_uses_github_env`,
`uses_github_env`, `audit_step`) over those models.  Parsing itself
(external tree-sitter grammars) is abstracted as a function from script
text to an optional tree.
-/

namespace GithubEnvAudit

/-! ## Character-list helpers (substring and case-folding machinery) -/

/-- Lower-case a character list (ASCII case folding, as `Char.toLower`). -/
def listToLower (l : List Char) : List Char := l.map Char.toLower

/-- `startsWithL pat l` : does `l` start with `pat`? -/
def startsWithL : List Char → List Char → Bool
  | [], _ => true
  | _ :: _, [] => false
  | p :: ps, t :: ts => p == t && startsWithL ps ts

/-- `hasSubL pat l` : does `pat` occur contiguously anywhere in `l`?
This is the semantics of an unanchored regular-expression search for a
pattern consisting only of literal characters. -/
def hasSubL (pat : List Char) : List Char → Bool
  | [] => startsWithL pat []
  | c :: ts => startsWithL pat (c :: ts) || hasSubL pat ts

/-- All decompositions of a list into a prefix/suffix pair, in order. -/
def splits : List Char → List (List Char × List Char)
  | [] => [([], [])]
  | c :: ts => ([], c :: ts) :: (splits ts).map (fun p => (c :: p.1, p.2))


/-! ## The command-interpreter regular expression

`GITHUB_ENV_WRITE_CMD` in the source is the Rust regex

  (?mi)^.+\s*>>?\s*"?%GITHUB_ENV%"?.*$

compiled once and applied with `is_match`.  Semantics modelled here:
`(?m)` makes `^` match at the string start and after every newline and `$`
before every newline or at the end; `(?i)` folds letter case; `.` matches
any character except a newline; `\s` matches whitespace (the ASCII
whitespace characters are modelled) including newlines.  After the
`%GITHUB_ENV%` token the residue `"?.*$` is always satisfiable (take the
run of non-newline characters up to the next newline or the string end),
so it imposes no constraint on matching. -/

/-- ASCII whitespace, the relevant fragment of the regex class `\s`. -/
def isWsChar (c : Char) : Bool :=
  c == ' ' || c == '\t' || c == '\n' || c == '\r' ||
  c == Char.ofNat 11 || c == Char.ofNat 12

/-- The case-folded tail of the `%GITHUB_ENV%` token (everything after the
leading percent sign, which has no case and is matched literally). -/
def envTokenTail : List Char := String.toList "github_env%"

/-- Match the literal token `%GITHUB_ENV%` case-insensitively at the head
of `l`. -/
def matchEnvTok (l : List Char) : Bool :=
  match l with
  | c :: rest => c == '%' && startsWithL envTokenTail (listToLower rest)
  | [] => false

/-- Match the fragment `"?%GITHUB_ENV%` at the head of `l`: an optional
double quote, then the token.  (The trailing `"?.*$` always matches.) -/
def matchQuoteEnv (l : List Char) : Bool :=
  matchEnvTok l ||
  (match l with
   | c :: rest => c == '"' && matchEnvTok rest
   | [] => false)

/-- Match the fragment `\s*"?%GITHUB_ENV%` at the head of `l`. -/
def matchAfterGt (l : List Char) : Bool :=
  (splits l).any (fun p => p.1.all isWsChar && matchQuoteEnv p.2)

/-- Match the fragment `>>?\s*"?%GITHUB_ENV%` at the head of `l`: one
mandatory redirection sign, an optional second one, then the rest. -/
def matchGt (l : List Char) : Bool :=
  match l with
  | c :: rest =>
    c == '>' &&
    (matchAfterGt rest ||
      (match rest with
       | c2 :: rest2 => c2 == '>' && matchAfterGt rest2
       | [] => false))
  | [] => false

/-- Match the whole pattern `.+\s*>>?\s*"?%GITHUB_ENV%"?.*$` starting at a
position where `^` matches. -/
def matchFromLineStart (l : List Char) : Bool :=
  (splits l).any (fun p =>
    !p.1.isEmpty && p.1.all (fun c => c != '\n') &&
    (splits p.2).any (fun q => q.1.all isWsChar && matchGt q.2))

/-- The suffixes of `l` that begin immediately after a newline: with
`(?m)`, `^` matches exactly at these positions and at the string start. -/
def suffixesAfterNewline : List Char → List (List Char)
  | [] => []
  | c :: ts =>
    if c == '\n' then ts :: suffixesAfterNewline ts else suffixesAfterNewline ts

/-- Embedding of `GITHUB_ENV_WRITE_CMD.is_match` (`github_env.rs`): the
multiline case-insensitive search for a redirection into `%GITHUB_ENV%`. -/
def githubEnvWriteCmdIsMatch (s : String) : Bool :=
  (s.toList :: suffixesAfterNewline s.toList).any matchFromLineStart

/-- Spec-side characterization of one matching position, stated in the
words of the corrected claim: at least one non-newline character, then
optional whitespace, then a redirection operator of one or two signs,
then optional whitespace, then at most one double quote, and then
immediately the percent-delimited token, its letters folded for case.
To be proved equivalent to the executable matcher. -/
def cmdLineSpec (l : List Char) : Prop :=
  ∃ pre w1 sign w2 quote rest,
    l = pre ++ (w1 ++ (sign ++ (w2 ++ (quote ++ '%' :: rest)))) ∧
    pre ≠ [] ∧ (∀ c ∈ pre, c ≠ '\n') ∧
    (∀ c ∈ w1, isWsChar c = true) ∧
    (sign = ['>'] ∨ sign = ['>', '>']) ∧
    (∀ c ∈ w2, isWsChar c = true) ∧
    (quote = [] ∨ quote = ['"']) ∧
    startsWithL envTokenTail (listToLower rest) = true

/-- Spec-side characterization of a whole-script match: some position
where the multiline anchor matches (the string start or a position just
after a newline) satisfies `cmdLineSpec`. -/
def cmdSpecMatch (s : String) : Prop :=
  ∃ l ∈ s.toList :: suffixesAfterNewline s.toList, cmdLineSpec l


/-! ## Syntax trees

Tree-sitter trees are modelled as nodes carrying their grammar kind, the
field name they occupy in their parent (when any), whether they are named
(query patterns only match named nodes), their source text, their byte
range, and their children. -/

inductive Node : Type where
  | mk (kind : String) (fieldInParent : Option String) (isNamed : Bool)
       (text : String) (byteStart byteStop : Nat) (children : List Node) : Node
deriving Repr

def Node.kind : Node → String
  | .mk k _ _ _ _ _ _ => k

def Node.fieldInParent : Node → Option String
  | .mk _ f _ _ _ _ _ => f

def Node.isNamed : Node → Bool
  | .mk _ _ nm _ _ _ _ => nm

def Node.text : Node → String
  | .mk _ _ _ t _ _ _ => t

def Node.byteStart : Node → Nat
  | .mk _ _ _ _ s _ _ => s

def Node.byteStop : Node → Nat
  | .mk _ _ _ _ _ e _ => e

def Node.children : Node → List Node
  | .mk _ _ _ _ _ _ cs => cs

/-- `node.byte_range()` on a tree-sitter node. -/
def Node.byteRange (n : Node) : Nat × Nat := (n.byteStart, n.byteStop)

/-- The named children of a node, as seen by tree-sitter queries and by
`named_child_count` / `named_child`. -/
def Node.namedChildren (n : Node) : List Node := n.children.filter Node.isNamed

mutual

def Node.beq : Node → Node → Bool
  | .mk k1 f1 n1 t1 s1 e1 cs1, .mk k2 f2 n2 t2 s2 e2 cs2 =>
    k1 == k2 && f1 == f2 && n1 == n2 && t1 == t2 && s1 == s2 && e1 == e2 &&
    beqNodeList cs1 cs2

def beqNodeList : List Node → List Node → Bool
  | [], [] => true
  | a :: as, b :: bs => Node.beq a b && beqNodeList as bs
  | _, _ => false

end

mutual

def Node.beqIff : ∀ a b : Node, Node.beq a b = true ↔ a = b
  | .mk k1 f1 n1 t1 s1 e1 cs1, .mk k2 f2 n2 t2 s2 e2 cs2 => by
    simp only [Node.beq, Bool.and_eq_true, beq_iff_eq, Node.mk.injEq,
      beqNodeListIff cs1 cs2]
    tauto

def beqNodeListIff : ∀ as bs : List Node, beqNodeList as bs = true ↔ as = bs
  | [], [] => by simp [beqNodeList]
  | [], _ :: _ => by simp [beqNodeList]
  | _ :: _, [] => by simp [beqNodeList]
  | a :: as, b :: bs => by
    simp only [beqNodeList, Bool.and_eq_true, Node.beqIff a b,
      beqNodeListIff as bs, List.cons.injEq]

end

instance : DecidableEq Node := fun a b => decidable_of_iff _ (Node.beqIff a b)

mutual

/-- All nodes of a tree (the root and every descendant), the domain over
which a tree-sitter query cursor looks for pattern matches. -/
def Node.allNodes : Node → List Node
  | .mk k f nm t s e cs => .mk k f nm t s e cs :: allNodesList cs

def allNodesList : List Node → List Node
  | [] => []
  | c :: cs => c.allNodes ++ allNodesList cs

end


/-! ## Query predicate tests

Each tree-sitter query in the source constrains captured nodes with a
`match?` predicate: an unanchored regular-expression search over the
captured node's text.  All the patterns used are literal strings (with an
optional case-insensitivity flag and, in the cmdlet test, alternation), so
a search is a (possibly case-folded) substring test. -/

/-- `match? destination "GITHUB_ENV"` of `BASH_REDIRECT_QUERY`: note the
pattern carries no case-insensitivity flag, so the search is
case-sensitive. -/
def bashDestinationTest (s : String) : Bool :=
  hasSubL (String.toList "GITHUB_ENV") s.toList

/-- `match? cmd "tee"` of `BASH_PIPELINE_QUERY`: an unanchored substring
test, not an exact-name comparison. -/
def bashTeeCmdTest (s : String) : Bool :=
  hasSubL (String.toList "tee") s.toList

/-- `match? arg "GITHUB_ENV"` of `BASH_PIPELINE_QUERY`. -/
def bashPipelineArgTest (s : String) : Bool :=
  hasSubL (String.toList "GITHUB_ENV") s.toList

/-- `match? destination "(?i)ENV:GITHUB_ENV"` of the two powershell
queries: case-insensitive substring test. -/
def pwshDestinationTest (s : String) : Bool :=
  hasSubL (listToLower (String.toList "ENV:GITHUB_ENV")) (listToLower s.toList)

/-- `match? cmd "(?i)out-file|add-content|set-content|tee-object"` of
`PWSH_PIPELINE_QUERY`: case-insensitive search for any alternative. -/
def pwshCmdletTest (s : String) : Bool :=
  hasSubL (String.toList "out-file") (listToLower s.toList) ||
  hasSubL (String.toList "add-content") (listToLower s.toList) ||
  hasSubL (String.toList "set-content") (listToLower s.toList) ||
  hasSubL (String.toList "tee-object") (listToLower s.toList)

/-! ## BASH_REDIRECT_QUERY

    (redirected_statement
     ((command name: (command_name) @cmd argument: (_)* @args))
     (file_redirect ([ (string (_ (variable_name)))
                       (expansion (variable_name))
                       (simple_expansion (variable_name)) ] @destination))
     (match? @destination "GITHUB_ENV")) @span
-/

/-- One match of `BASH_REDIRECT_QUERY`: the `@cmd`, `@args`,
`@destination` and `@span` captures. -/
structure BashRedirectMatch where
  cmd : Node
  args : List Node
  dest : Node
  span : Node
deriving Repr, DecidableEq

/-- Does `n` have a named child of kind `k`? -/
def hasNamedChildOfKind (k : String) (n : Node) : Bool :=
  n.namedChildren.any (fun c => c.kind == k)

/-- The destination alternation of `BASH_REDIRECT_QUERY`: a double-quoted
string containing a node that contains a `variable_name`, or an
`expansion` / `simple_expansion` containing a `variable_name`. -/
def bashDestShape (d : Node) : Bool :=
  (d.kind == "string" && d.namedChildren.any (hasNamedChildOfKind "variable_name")) ||
  ((d.kind == "expansion" || d.kind == "simple_expansion") &&
    hasNamedChildOfKind "variable_name" d)

/-- Matches of `BASH_REDIRECT_QUERY` rooted at `n`. -/
def bashRedirectMatchesAt (n : Node) : List BashRedirectMatch :=
  if n.kind == "redirected_statement" then
    (n.namedChildren.filter (fun c => c.kind == "command")).flatMap (fun c =>
      (c.namedChildren.filter (fun x =>
          x.fieldInParent == some "name" && x.kind == "command_name")).flatMap (fun cn =>
        (n.namedChildren.filter (fun fr => fr.kind == "file_redirect")).flatMap (fun fr =>
          ((fr.namedChildren.filter (fun d =>
              bashDestShape d && bashDestinationTest d.text)).map (fun d =>
            { cmd := cn,
              args := c.namedChildren.filter (fun x => x.fieldInParent == some "argument"),
              dest := d, span := n })))))
  else []

/-- All matches of `BASH_REDIRECT_QUERY` over a tree. -/
def bashRedirectQuery (root : Node) : List BashRedirectMatch :=
  root.allNodes.flatMap bashRedirectMatchesAt

/-! ## BASH_PIPELINE_QUERY

    (pipeline
      (command name: (command_name) @cmd
               argument: [ (string (_ (variable_name)))
                           (expansion)
                           (simple_expansion) ] @arg)
      (match? @cmd "tee") (match? @arg "GITHUB_ENV")) @span
-/

/-- One match of `BASH_PIPELINE_QUERY`. -/
structure BashPipelineMatch where
  cmd : Node
  arg : Node
  span : Node
deriving Repr, DecidableEq

/-- The argument alternation of `BASH_PIPELINE_QUERY`: note the
`expansion` / `simple_expansion` alternatives carry no inner
`variable_name` requirement here. -/
def bashPipelineArgShape (a : Node) : Bool :=
  (a.kind == "string" && a.namedChildren.any (hasNamedChildOfKind "variable_name")) ||
  a.kind == "expansion" || a.kind == "simple_expansion"

/-- Matches of `BASH_PIPELINE_QUERY` rooted at `n`. -/
def bashPipelineMatchesAt (n : Node) : List BashPipelineMatch :=
  if n.kind == "pipeline" then
    (n.namedChildren.filter (fun c => c.kind == "command")).flatMap (fun c =>
      (c.namedChildren.filter (fun x =>
          x.fieldInParent == some "name" && x.kind == "command_name")).flatMap (fun cn =>
        ((c.namedChildren.filter (fun a =>
            a.fieldInParent == some "argument" && bashPipelineArgShape a)).filterMap
          (fun a =>
            if bashTeeCmdTest cn.text && bashPipelineArgTest a.text then
              some { cmd := cn, arg := a, span := n }
            else none))))
  else []

/-- All matches of `BASH_PIPELINE_QUERY` over a tree. -/
def bashPipelineQuery (root : Node) : List BashPipelineMatch :=
  root.allNodes.flatMap bashPipelineMatchesAt

/-! ## PWSH_REDIRECT_QUERY and PWSH_PIPELINE_QUERY

    (redirection
      (file_redirection_operator)
      (redirected_file_name (_)*
        (array_literal_expression
          (unary_expression [ (string_literal
                                (expandable_string_literal (variable) @destination))
                              (variable) @destination ]) (_)*)
      (match? @destination "(?i)ENV:GITHUB_ENV"))) @span

    (pipeline
      (command command_name: (command_name) @cmd
               command_elements: (command_elements (_)*
                 (array_literal_expression
                   (unary_expression [ (string_literal
                                         (expandable_string_literal (variable) @destination))
                                       (variable) @destination ])) (_)*))
      (match? @cmd "(?i)out-file|add-content|set-content|tee-object")
      (match? @destination "(?i)ENV:GITHUB_ENV")) @span
-/

/-- The `@destination` candidates inside a `unary_expression` node: a bare
`variable`, or a `variable` inside an `expandable_string_literal` inside a
`string_literal`. -/
def pwshUnaryDestinations (ue : Node) : List Node :=
  ue.namedChildren.flatMap (fun ch =>
    if ch.kind == "variable" then [ch]
    else if ch.kind == "string_literal" then
      ch.namedChildren.flatMap (fun esl =>
        if esl.kind == "expandable_string_literal" then
          esl.namedChildren.filter (fun v => v.kind == "variable")
        else [])
    else [])

/-- One match of a powershell query: the `@destination` and `@span`
captures (plus `@cmd` for the pipeline query, kept in a separate type). -/
structure PwshRedirectMatch where
  dest : Node
  span : Node
deriving Repr, DecidableEq

structure PwshPipelineMatch where
  cmd : Node
  dest : Node
  span : Node
deriving Repr, DecidableEq

/-- Matches of `PWSH_REDIRECT_QUERY` rooted at `n`. -/
def pwshRedirectMatchesAt (n : Node) : List PwshRedirectMatch :=
  if n.kind == "redirection" &&
      n.namedChildren.any (fun c => c.kind == "file_redirection_operator") then
    (n.namedChildren.filter (fun c => c.kind == "redirected_file_name")).flatMap
      (fun rfn =>
        (rfn.namedChildren.filter
            (fun c => c.kind == "array_literal_expression")).flatMap (fun ale =>
          (ale.namedChildren.filter
              (fun c => c.kind == "unary_expression")).flatMap (fun ue =>
            ((pwshUnaryDestinations ue).filter
                (fun d => pwshDestinationTest d.text)).map (fun d =>
              { dest := d, span := n }))))
  else []

def pwshRedirectQuery (root : Node) : List PwshRedirectMatch :=
  root.allNodes.flatMap pwshRedirectMatchesAt

/-- Matches of `PWSH_PIPELINE_QUERY` rooted at `n`. -/
def pwshPipelineMatchesAt (n : Node) : List PwshPipelineMatch :=
  if n.kind == "pipeline" then
    (n.namedChildren.filter (fun c => c.kind == "command")).flatMap (fun c =>
      (c.namedChildren.filter (fun x =>
          x.fieldInParent == some "command_name" && x.kind == "command_name")).flatMap
        (fun cn =>
          (c.namedChildren.filter (fun x =>
              x.fieldInParent == some "command_elements" &&
              x.kind == "command_elements")).flatMap (fun ce =>
            (ce.namedChildren.filter
                (fun a => a.kind == "array_literal_expression")).flatMap (fun ale =>
              (ale.namedChildren.filter
                  (fun u => u.kind == "unary_expression")).flatMap (fun ue =>
                ((pwshUnaryDestinations ue).filterMap (fun d =>
                  if pwshCmdletTest cn.text && pwshDestinationTest d.text then
                    some { cmd := cn, dest := d, span := n }
                  else none)))))))
  else []

def pwshPipelineQuery (root : Node) : List PwshPipelineMatch :=
  root.allNodes.flatMap pwshPipelineMatchesAt

/-! ## Safety classifier and dialect detectors -/

/-- `GitHubEnv::bash_echo_arg_is_safe`: an `echo` argument is safe when it
is a bare `word`, a single-quoted `raw_string`, or a node with exactly one
named child which is a literal `string_content` (the double-quoted
literal-only case). -/
def bashEchoArgIsSafe (arg : Node) : Bool :=
  arg.kind == "word" || arg.kind == "raw_string" ||
  (arg.namedChildren.length == 1 &&
    (arg.namedChildren.head?.map Node.kind == some "string_content"))

/-- `GitHubEnv::bash_echo_args_are_safe`. -/
def bashEchoArgsAreSafe (args : List Node) : Bool :=
  args.all bashEchoArgIsSafe

/-- The span-collection loop of `GitHubEnv::bash_uses_github_env` over the
redirect-query matches: a match is pushed unless its command is exactly
`echo` and all of its argument captures are safe. -/
def bashRedirectSpans (ms : List BashRedirectMatch) : List (Nat × Nat) :=
  ms.foldl (fun acc m =>
    if m.cmd.text != "echo" || !bashEchoArgsAreSafe m.args then
      acc ++ [m.span.byteRange]
    else acc) []

/-- `GitHubEnv::bash_uses_github_env` given the tree-sitter parse result
of the script body (`none` models `Parser::parse` returning no tree):
the redirect-query spans surviving the safety filter, followed by every
pipeline-query span unconditionally. -/
def bashUsesGithubEnv (parseResult : Option Node) :
    Except String (List (Nat × Nat)) :=
  match parseResult with
  | none => .error "failed to parse run body as bash"
  | some tree =>
    .ok (bashRedirectSpans (bashRedirectQuery tree) ++
      (bashPipelineQuery tree).map (fun m => m.span.byteRange))

/-- `GitHubEnv::pwsh_uses_github_env` given the parse result: true as
soon as either powershell query has a match, with no safety exemption. -/
def pwshUsesGithubEnv (parseResult : Option Node) : Except String Bool :=
  match parseResult with
  | none => .error "failed to parse run body as pwsh"
  | some tree =>
    if !(pwshRedirectQuery tree).isEmpty then .ok true
    else if !(pwshPipelineQuery tree).isEmpty then .ok true
    else .ok false

/-! ## Dialect dispatcher -/

/-- The audit object: the two parsers (abstracted as parse functions,
which model the fixed grammar plus `Parser::parse(text, None)`) and a
counter per parser modelling the interior mutation of the `RefCell`-held
parser objects.  The compiled queries are process-wide constants and are
embedded above as the query functions. -/
structure GitHubEnv where
  parseBash : String → Option Node
  parsePwsh : String → Option Node
  bashParserState : Nat
  pwshParserState : Nat

/-- A single-quote character, written by code point. -/
def squote : String := String.singleton (Char.ofNat 39)

/-- The warning logged for an unsupported interpreter, naming it. -/
def shellWarnMsg (shell : String) : String :=
  squote ++ (shell ++ (squote ++ " shell not supported when evaluating usage of GITHUB_ENV"))

/-- `GitHubEnv::uses_github_env`: dispatch on the shell identifier.
Returns the detection result, the warnings logged during the call, and
the audit object afterwards (a parse mutates the dialect's parser). -/
def usesGithubEnv (g : GitHubEnv) (runStepBody shell : String) :
    Except String Bool × List String × GitHubEnv :=
  if shell == "bash" || shell == "sh" then
    ((bashUsesGithubEnv (g.parseBash runStepBody)).map (fun r => !r.isEmpty),
      [], { g with bashParserState := g.bashParserState + 1 })
  else if shell == "cmd" then
    (.ok (githubEnvWriteCmdIsMatch runStepBody), [], g)
  else if shell == "pwsh" || shell == "powershell" then
    (pwshUsesGithubEnv (g.parsePwsh runStepBody), [],
      { g with pwshParserState := g.pwshParserState + 1 })
  else
    (.ok false, [shellWarnMsg shell], g)

/-! ## Rule adapter (`WorkflowAudit for GitHubEnv`) -/

inductive Severity where
  | unknown | informational | low | medium | high
deriving Repr, DecidableEq

inductive Confidence where
  | unknown | low | medium | high
deriving Repr, DecidableEq

/-- A reported source location: primary flag, the sub-keys it is narrowed
to, and the human-readable annotation. -/
structure Location where
  primary : Bool
  keys : List String
  annot : String
deriving Repr, DecidableEq

/-- A finding as built through the finding-construction protocol. -/
structure Finding where
  ident : String
  desc : String
  severity : Severity
  confidence : Confidence
  locations : List Location
deriving Repr, DecidableEq

/-- The enclosing workflow, exposing the trigger predicates and filename
used by `audit_step`. -/
structure Workflow where
  hasWorkflowRun : Bool
  hasPullRequestTarget : Bool
  filename : String

/-- A step body: a literal run command or a reusable-action invocation. -/
inductive StepBody where
  | run (run : String)
  | uses (uses : String)

/-- An audited step: its body, the shell resolved by `Step::shell()`
(`none` when inference fails), and its coordinates. -/
structure Step where
  body : StepBody
  shellHint : Option String
  workflow : Workflow
  jobId : String
  index : Nat

/-- The warning logged when no shell can be inferred for a run step. -/
def shellInferWarnMsg (st : Step) : String :=
  "github-env: could not determine shell type for " ++ st.workflow.filename ++
    ":" ++ st.jobId ++ " step " ++ toString st.index

/-- The single finding `audit_step` emits: the `audit_meta!` identity,
severity High, confidence Low, and one primary location narrowed to the
step's `run` key with the fixed annotation. -/
def githubEnvFinding : Finding :=
  { ident := "github-env"
    desc := "dangerous use of GITHUB_ENV"
    severity := .high
    confidence := .low
    locations := [{ primary := true, keys := ["run"],
                    annot := "GITHUB_ENV write may allow code execution" }] }

/-- `GitHubEnv::audit_step`, generalized over the detection entry point it
invokes (the real entry point instantiates it with `usesGithubEnv`): gate
on the dangerous triggers, consider only run bodies, resolve the shell
(defaulting to bash with a warning), detect, and report at most one
finding. -/
def auditStepWith
    (detect : GitHubEnv → String → String → Except String Bool × List String × GitHubEnv)
    (g : GitHubEnv) (step : Step) :
    Except String (List Finding) × List String × GitHubEnv :=
  if !(step.workflow.hasWorkflowRun || step.workflow.hasPullRequestTarget) then
    (.ok [], [], g)
  else
    match step.body with
    | .run r =>
      let resolved : String × List String :=
        match step.shellHint with
        | some sh => (sh, [])
        | none => ("bash", [shellInferWarnMsg step])
      match detect g r resolved.1 with
      | (.ok true, logs, gOut) => (.ok [githubEnvFinding], resolved.2 ++ logs, gOut)
      | (.ok false, logs, gOut) => (.ok [], resolved.2 ++ logs, gOut)
      | (.error e, logs, gOut) => (.error e, resolved.2 ++ logs, gOut)
    | .uses _ => (.ok [], [], g)

/-- The rule's step-audit entry point. -/
def auditStep (g : GitHubEnv) (step : Step) :
    Except String (List Finding) × List String × GitHubEnv :=
  auditStepWith usesGithubEnv g step

/-! ## Concrete sample inputs

Sample syntax trees mirror the shapes the tree-sitter bash and powershell
grammars produce for the quoted scripts; they serve as concrete inputs for
the witness theorems below. -/

/-- An audit object whose parsers produce no tree. -/
def trivialGitHubEnv : GitHubEnv :=
  { parseBash := fun _ => none, parsePwsh := fun _ => none,
    bashParserState := 0, pwshParserState := 0 }

/-- The same grammar as `trivialGitHubEnv` but with different parser
state counters. -/
def agedGitHubEnv : GitHubEnv :=
  { parseBash := fun _ => none, parsePwsh := fun _ => none,
    bashParserState := 5, pwshParserState := 7 }

/-- Tree of the bash script `echo $foo >> $GITHUB_ENV`. -/
def sampleBashUnsafeTree : Node :=
  .mk "program" none true "echo $foo >> $GITHUB_ENV" 0 24
    [.mk "redirected_statement" none true "echo $foo >> $GITHUB_ENV" 0 24
      [.mk "command" (some "body") true "echo $foo" 0 9
        [.mk "command_name" (some "name") true "echo" 0 4
          [.mk "word" none true "echo" 0 4 []],
         .mk "simple_expansion" (some "argument") true "$foo" 5 9
          [.mk "variable_name" none true "foo" 6 9 []]],
       .mk "file_redirect" (some "redirect") true ">> $GITHUB_ENV" 10 24
        [.mk "simple_expansion" none true "$GITHUB_ENV" 13 24
          [.mk "variable_name" none true "GITHUB_ENV" 14 24 []]]]]

/-- Tree of the bash script `echo $foo >> $github_env` (lower-case
destination). -/
def sampleBashLowercaseTree : Node :=
  .mk "program" none true "echo $foo >> $github_env" 0 24
    [.mk "redirected_statement" none true "echo $foo >> $github_env" 0 24
      [.mk "command" (some "body") true "echo $foo" 0 9
        [.mk "command_name" (some "name") true "echo" 0 4
          [.mk "word" none true "echo" 0 4 []],
         .mk "simple_expansion" (some "argument") true "$foo" 5 9
          [.mk "variable_name" none true "foo" 6 9 []]],
       .mk "file_redirect" (some "redirect") true ">> $github_env" 10 24
        [.mk "simple_expansion" none true "$github_env" 13 24
          [.mk "variable_name" none true "github_env" 14 24 []]]]]

/-- Tree of the bash script `echo x >> GITHUB_ENV`: the destination is a
bare word, not a variable reference, so the tree contains no `expansion`,
`simple_expansion` or `variable_name` node. -/
def sampleBashBareTree : Node :=
  .mk "program" none true "echo x >> GITHUB_ENV" 0 20
    [.mk "redirected_statement" none true "echo x >> GITHUB_ENV" 0 20
      [.mk "command" (some "body") true "echo x" 0 6
        [.mk "command_name" (some "name") true "echo" 0 4
          [.mk "word" none true "echo" 0 4 []],
         .mk "word" (some "argument") true "x" 5 6 []],
       .mk "file_redirect" (some "redirect") true ">> GITHUB_ENV" 7 20
        [.mk "word" none true "GITHUB_ENV" 10 20 []]]]

/-- The nodes of the pipeline tree for `something | teex ${GITHUB_ENV}`:
the command name contains `tee` as a strict substring only. -/
def teexCmdNameNode : Node :=
  .mk "command_name" (some "name") true "teex" 12 16
    [.mk "word" none true "teex" 12 16 []]

def teexArgNode : Node :=
  .mk "expansion" (some "argument") true "${GITHUB_ENV}" 17 30
    [.mk "variable_name" none true "GITHUB_ENV" 19 29 []]

def teexCommandNode : Node :=
  .mk "command" none true "teex ${GITHUB_ENV}" 12 30 [teexCmdNameNode, teexArgNode]

def teexPipelineNode : Node :=
  .mk "pipeline" none true "something | teex ${GITHUB_ENV}" 0 30
    [.mk "command" none true "something" 0 9
      [.mk "command_name" (some "name") true "something" 0 9
        [.mk "word" none true "something" 0 9 []]],
     teexCommandNode]

/-- Tree of the bash script `something | teex ${GITHUB_ENV}`. -/
def sampleBashTeexTree : Node :=
  .mk "program" none true "something | teex ${GITHUB_ENV}" 0 30 [teexPipelineNode]

/-- An audit object whose bash parser yields `sampleBashTeexTree`. -/
def teexGitHubEnv : GitHubEnv :=
  { parseBash := fun _ => some sampleBashTeexTree, parsePwsh := fun _ => none,
    bashParserState := 0, pwshParserState := 0 }

/-- The nodes of the powershell pipeline tree for
`echo foo | out-file $ENV:GitHub_Env`. -/
def pwshVarNode : Node :=
  .mk "variable" none true "$ENV:GitHub_Env" 20 35 []

def pwshUeNode : Node :=
  .mk "unary_expression" none true "$ENV:GitHub_Env" 20 35 [pwshVarNode]

def pwshAleNode : Node :=
  .mk "array_literal_expression" none true "$ENV:GitHub_Env" 20 35 [pwshUeNode]

def pwshCeNode : Node :=
  .mk "command_elements" (some "command_elements") true "$ENV:GitHub_Env" 20 35
    [pwshAleNode]

def pwshCnNode : Node :=
  .mk "command_name" (some "command_name") true "out-file" 11 19 []

def pwshCommandNode : Node :=
  .mk "command" none true "out-file $ENV:GitHub_Env" 11 35 [pwshCnNode, pwshCeNode]

def pwshPipelineNode : Node :=
  .mk "pipeline" none true "echo foo | out-file $ENV:GitHub_Env" 0 35
    [.mk "command" none true "echo foo" 0 8
      [.mk "command_name" (some "command_name") true "echo" 0 4 []],
     pwshCommandNode]

/-- Tree of the powershell script `echo foo | out-file $ENV:GitHub_Env`. -/
def samplePwshPipelineTree : Node :=
  .mk "program" none true "echo foo | out-file $ENV:GitHub_Env" 0 35
    [pwshPipelineNode]

/-- Tree of the powershell script `foo >> GITHUB_ENV`: the redirection
target is a bare literal, so the tree contains no `variable` node. -/
def samplePwshBareTree : Node :=
  .mk "program" none true "foo >> GITHUB_ENV" 0 17
    [.mk "pipeline" none true "foo >> GITHUB_ENV" 0 17
      [.mk "command" none true "foo >> GITHUB_ENV" 0 17
        [.mk "command_name" (some "command_name") true "foo" 0 3 [],
         .mk "redirection" none true ">> GITHUB_ENV" 4 17
          [.mk "file_redirection_operator" none true ">>" 4 6 [],
           .mk "redirected_file_name" none true "GITHUB_ENV" 7 17
            [.mk "array_literal_expression" none true "GITHUB_ENV" 7 17
              [.mk "unary_expression" none true "GITHUB_ENV" 7 17
                [.mk "generic_token" none true "GITHUB_ENV" 7 17 []]]]]]]]

/-- A workflow declaring a dangerous trigger, and one declaring none. -/
def sampleWorkflowDangerous : Workflow :=
  { hasWorkflowRun := false, hasPullRequestTarget := true, filename := "wf.yml" }

def sampleWorkflowSafe : Workflow :=
  { hasWorkflowRun := false, hasPullRequestTarget := false, filename := "wf.yml" }

/-- A `cmd` run step writing through a `%GITHUB_ENV%` redirection, inside
a workflow with a dangerous trigger. -/
def sampleCmdStep : Step :=
  { body := .run "echo FOO=x >> %GITHUB_ENV%", shellHint := some "cmd",
    workflow := sampleWorkflowDangerous, jobId := "test", index := 0 }

/-- A `cmd` run step with no percent token at all. -/
def sampleCmdStepClean : Step :=
  { body := .run "echo x >> GITHUB_ENV", shellHint := some "cmd",
    workflow := sampleWorkflowDangerous, jobId := "test", index := 1 }

/-- A run step inside a workflow with no dangerous trigger. -/
def sampleStepNoTriggers : Step :=
  { body := .run "echo $x >> $GITHUB_ENV", shellHint := some "bash",
    workflow := sampleWorkflowSafe, jobId := "test", index := 0 }

/-! ## Library lemmas for the proofs -/

theorem startsWithL_iff (pat : List Char) :
    ∀ l, startsWithL pat l = true ↔ ∃ r, l = pat ++ r := by
  induction pat with
  | nil =>
    intro l
    simp [startsWithL]
  | cons p ps ih =>
    intro l
    cases l with
    | nil =>
      simp [startsWithL]
    | cons c cs =>
      simp only [startsWithL, Bool.and_eq_true, beq_iff_eq, ih cs, List.cons_append,
        List.cons.injEq]
      constructor
      · rintro ⟨hpc, r, hr⟩
        exact ⟨r, hpc.symm, hr⟩
      · rintro ⟨r, hcp, hr⟩
        exact ⟨hcp.symm, r, hr⟩

theorem startsWithL_append_self (pat r : List Char) :
    startsWithL pat (pat ++ r) = true :=
  (startsWithL_iff pat (pat ++ r)).mpr ⟨r, rfl⟩

theorem hasSubL_iff (pat : List Char) :
    ∀ l, hasSubL pat l = true ↔ ∃ a b, l = a ++ pat ++ b := by
  intro l
  induction l with
  | nil =>
    simp only [hasSubL, startsWithL_iff]
    constructor
    · rintro ⟨r, hr⟩
      exact ⟨[], r, by simpa using hr⟩
    · rintro ⟨a, b, hab⟩
      rcases List.append_eq_nil.mp (List.append_eq_nil.mp hab.symm).1 with ⟨_, hp⟩
      exact ⟨b, by simp [hp, (List.append_eq_nil.mp hab.symm).2]⟩
  | cons c cs ih =>
    simp only [hasSubL, Bool.or_eq_true, startsWithL_iff, ih]
    constructor
    · rintro (⟨r, hr⟩ | ⟨a, b, hab⟩)
      · exact ⟨[], r, by simpa using hr⟩
      · exact ⟨c :: a, b, by simp [hab]⟩
    · rintro ⟨a, b, hab⟩
      cases a with
      | nil =>
        exact Or.inl ⟨b, by simpa using hab⟩
      | cons a0 as =>
        refine Or.inr ⟨as, b, ?_⟩
        have h2 : cs = as ++ pat ++ b := by
          have := hab
          simp only [List.cons_append, List.cons.injEq] at this
          exact this.2
        simpa using h2

theorem splits_sound : ∀ {l : List Char} {p : List Char × List Char},
    p ∈ splits l → p.1 ++ p.2 = l := by
  intro l
  induction l with
  | nil =>
    intro p hp
    simp only [splits, List.mem_singleton] at hp
    simp [hp]
  | cons c ts ih =>
    intro p hp
    simp only [splits, List.mem_cons, List.mem_map] at hp
    rcases hp with h | ⟨q, hq, hqp⟩
    · simp [h]
    · have := ih hq
      subst hqp
      simp [this]

theorem splits_complete : ∀ (a b : List Char), (a, b) ∈ splits (a ++ b) := by
  intro a
  induction a with
  | nil =>
    intro b
    cases b <;> simp [splits]
  | cons c as ih =>
    intro b
    simp only [List.cons_append, splits, List.mem_cons, List.mem_map]
    exact Or.inr ⟨(as, b), ih b, rfl⟩

theorem listToLower_append (a b : List Char) :
    listToLower (a ++ b) = listToLower a ++ listToLower b := by
  simp [listToLower]

theorem matchEnvTok_percent {l : List Char} (h : matchEnvTok l = true) :
    '%' ∈ l := by
  cases l with
  | nil => simp [matchEnvTok] at h
  | cons c rest =>
    simp only [matchEnvTok, Bool.and_eq_true, beq_iff_eq] at h
    simp [h.1]

theorem matchQuoteEnv_percent {l : List Char} (h : matchQuoteEnv l = true) :
    '%' ∈ l := by
  simp only [matchQuoteEnv, Bool.or_eq_true] at h
  rcases h with h | h
  · exact matchEnvTok_percent h
  · cases l with
    | nil => simp at h
    | cons c rest =>
      simp only [Bool.and_eq_true, beq_iff_eq] at h
      exact List.mem_cons_of_mem _ (matchEnvTok_percent h.2)

theorem matchAfterGt_percent {l : List Char} (h : matchAfterGt l = true) :
    '%' ∈ l := by
  simp only [matchAfterGt, List.any_eq_true, Bool.and_eq_true] at h
  rcases h with ⟨p, hp, _, hq⟩
  have hl := splits_sound hp
  have : '%' ∈ p.2 := matchQuoteEnv_percent hq
  rw [← hl]
  exact List.mem_append.mpr (Or.inr this)

theorem matchGt_percent {l : List Char} (h : matchGt l = true) : '%' ∈ l := by
  cases l with
  | nil => simp [matchGt] at h
  | cons c rest =>
    simp only [matchGt, Bool.and_eq_true, Bool.or_eq_true, beq_iff_eq] at h
    rcases h.2 with h2 | h2
    · exact List.mem_cons_of_mem _ (matchAfterGt_percent h2)
    · cases rest with
      | nil => simp at h2
      | cons c2 rest2 =>
        simp only [Bool.and_eq_true, beq_iff_eq] at h2
        exact List.mem_cons_of_mem _
          (List.mem_cons_of_mem _ (matchAfterGt_percent h2.2))

theorem matchFromLineStart_percent {l : List Char}
    (h : matchFromLineStart l = true) : '%' ∈ l := by
  simp only [matchFromLineStart, List.any_eq_true, Bool.and_eq_true] at h
  rcases h with ⟨p, hp, ⟨_, _⟩, q, hq, _, hgt⟩
  have hl := splits_sound hp
  have hp2 := splits_sound hq
  have : '%' ∈ q.2 := matchGt_percent hgt
  rw [← hl, ← hp2]
  exact List.mem_append.mpr (Or.inr (List.mem_append.mpr (Or.inr this)))

theorem suffixesAfterNewline_sub {l : List Char} :
    ∀ l' ∈ suffixesAfterNewline l, ∀ c ∈ l', c ∈ l := by
  induction l with
  | nil => simp [suffixesAfterNewline]
  | cons a ts ih =>
    intro l' hl' c hc
    simp only [suffixesAfterNewline] at hl'
    split at hl'
    · rcases List.mem_cons.mp hl' with h | h
      · exact List.mem_cons_of_mem _ (h ▸ hc)
      · exact List.mem_cons_of_mem _ (ih l' h c hc)
    · exact List.mem_cons_of_mem _ (ih l' hl' c hc)

/-- A match of the command-interpreter regex requires a literal percent
sign somewhere in the script. -/
theorem githubEnvWriteCmd_requires_percent {s : String}
    (h : githubEnvWriteCmdIsMatch s = true) : '%' ∈ s.toList := by
  simp only [githubEnvWriteCmdIsMatch, List.any_eq_true, List.mem_cons] at h
  rcases h with ⟨l', hl', hm⟩
  rcases hl' with h | h
  · exact h ▸ matchFromLineStart_percent hm
  · exact suffixesAfterNewline_sub l' h '%' (matchFromLineStart_percent hm)

theorem Node.self_mem_allNodes (n : Node) : n ∈ n.allNodes := by
  cases n with
  | mk k f nm t s e cs => simp [Node.allNodes]

theorem mem_allNodesList_of_mem {c : Node} {cs : List Node} (h : c ∈ cs)
    {x : Node} (hx : x ∈ c.allNodes) : x ∈ allNodesList cs := by
  induction cs with
  | nil => cases h
  | cons d ds ih =>
    simp only [allNodesList, List.mem_append]
    rcases List.mem_cons.mp h with h1 | h2
    · exact Or.inl (h1 ▸ hx)
    · exact Or.inr (ih h2)

mutual

/-- Tree membership is closed under taking children. -/
theorem Node.child_mem_allNodes : ∀ (t n c : Node),
    n ∈ t.allNodes → c ∈ n.children → c ∈ t.allNodes
  | .mk k f nm tx s e cs, n, c, hn, hc => by
    rw [Node.allNodes] at hn ⊢
    rcases List.mem_cons.mp hn with h1 | h2
    · subst h1
      exact List.mem_cons_of_mem _
        (mem_allNodesList_of_mem hc (Node.self_mem_allNodes c))
    · exact List.mem_cons_of_mem _ (child_mem_allNodesList cs n c h2 hc)

theorem child_mem_allNodesList : ∀ (cs : List Node) (n c : Node),
    n ∈ allNodesList cs → c ∈ n.children → c ∈ allNodesList cs
  | [], n, c, hn, _ => absurd hn (by simp [allNodesList])
  | d :: ds, n, c, hn, hc => by
    rw [allNodesList] at hn ⊢
    rcases List.mem_append.mp hn with h1 | h2
    · exact List.mem_append.mpr (Or.inl (Node.child_mem_allNodes d n c h1 hc))
    · exact List.mem_append.mpr (Or.inr (child_mem_allNodesList ds n c h2 hc))

end

theorem Node.namedChild_mem_allNodes {t n c : Node} (hn : n ∈ t.allNodes)
    (hc : c ∈ n.namedChildren) : c ∈ t.allNodes :=
  Node.child_mem_allNodes t n c hn (List.mem_of_mem_filter hc)

/-! ## Structure of query matches -/

/-- What membership in the redirect-query matches at a node implies: the
span is the `redirected_statement` node itself, and the destination is a
named child of a `file_redirect` child satisfying the destination
alternation. -/
theorem bashRedirectMatchesAt_mem {n : Node} {m : BashRedirectMatch}
    (h : m ∈ bashRedirectMatchesAt n) :
    m.span = n ∧ n.kind = "redirected_statement" ∧
    (∃ fr ∈ n.namedChildren, fr.kind = "file_redirect" ∧ m.dest ∈ fr.namedChildren) ∧
    bashDestShape m.dest = true := by
  unfold bashRedirectMatchesAt at h
  by_cases hk : n.kind = "redirected_statement"
  · rw [if_pos (by simp [hk])] at h
    simp only [List.mem_flatMap, List.mem_filter, List.mem_map,
      Bool.and_eq_true, beq_iff_eq] at h
    obtain ⟨c, ⟨hc, hck⟩, cn, ⟨hcn, hcnf, hcnk⟩, fr, ⟨hfr, hfrk⟩, d, ⟨hd, hds, hdt⟩, hm⟩ := h
    refine ⟨by rw [← hm], hk, ⟨fr, hfr, hfrk, by rw [← hm]; exact hd⟩, by rw [← hm]; exact hds⟩
  · rw [if_neg (by simp [hk])] at h
    cases h

/-- What membership in the pipeline-query matches at a node implies. -/
theorem bashPipelineMatchesAt_mem {n : Node} {m : BashPipelineMatch}
    (h : m ∈ bashPipelineMatchesAt n) :
    m.span = n ∧ n.kind = "pipeline" ∧
    (∃ c ∈ n.namedChildren, c.kind = "command" ∧ m.arg ∈ c.namedChildren) ∧
    bashPipelineArgShape m.arg = true := by
  unfold bashPipelineMatchesAt at h
  by_cases hk : n.kind = "pipeline"
  · rw [if_pos (by simp [hk])] at h
    simp only [List.mem_flatMap, List.mem_filter, List.mem_filterMap,
      Bool.and_eq_true, beq_iff_eq] at h
    obtain ⟨c, ⟨hc, hck⟩, cn, ⟨hcn, hcnf, hcnk⟩, a, ⟨⟨ha, haf, has⟩, hsome⟩⟩ := h
    by_cases htest : bashTeeCmdTest cn.text = true ∧ bashPipelineArgTest a.text = true
    · rw [if_pos htest] at hsome
      have hm := Option.some.inj hsome
      refine ⟨by rw [← hm], hk, ⟨c, hc, hck, by rw [← hm]; exact ha⟩, by rw [← hm]; exact has⟩
    · rw [if_neg htest] at hsome
      cases hsome
  · rw [if_neg (by simp [hk])] at h
    cases h

/-- Every destination candidate inside a `unary_expression` is a
`variable` node, reachable from the expression within two named-child
steps. -/
theorem pwshUnaryDestinations_mem {ue d : Node} (h : d ∈ pwshUnaryDestinations ue) :
    d.kind = "variable" ∧
    (d ∈ ue.namedChildren ∨
      ∃ sl ∈ ue.namedChildren, ∃ esl ∈ sl.namedChildren, d ∈ esl.namedChildren) := by
  unfold pwshUnaryDestinations at h
  simp only [List.mem_flatMap] at h
  obtain ⟨ch, hch, hd⟩ := h
  by_cases h1 : ch.kind = "variable"
  · rw [if_pos (by simp [h1])] at hd
    simp only [List.mem_singleton] at hd
    subst hd
    exact ⟨h1, Or.inl hch⟩
  · rw [if_neg (by simp [h1])] at hd
    by_cases h2 : ch.kind = "string_literal"
    · rw [if_pos (by simp [h2])] at hd
      simp only [List.mem_flatMap] at hd
      obtain ⟨esl, hesl, hd⟩ := hd
      by_cases h3 : esl.kind = "expandable_string_literal"
      · rw [if_pos (by simp [h3])] at hd
        simp only [List.mem_filter, beq_iff_eq] at hd
        exact ⟨hd.2, Or.inr ⟨ch, hch, esl, hesl, hd.1⟩⟩
      · rw [if_neg (by simp [h3])] at hd
        cases hd
    · rw [if_neg (by simp [h2])] at hd
      cases hd

/-- What membership in the powershell redirect-query matches at a node
implies: the destination comes from a `unary_expression` nested under the
`redirected_file_name` of the redirection. -/
theorem pwshRedirectMatchesAt_mem {n : Node} {m : PwshRedirectMatch}
    (h : m ∈ pwshRedirectMatchesAt n) :
    ∃ rfn ∈ n.namedChildren, ∃ ale ∈ rfn.namedChildren, ∃ ue ∈ ale.namedChildren,
      m.dest ∈ pwshUnaryDestinations ue := by
  unfold pwshRedirectMatchesAt at h
  by_cases hk : (n.kind == "redirection" &&
      n.namedChildren.any (fun c => c.kind == "file_redirection_operator")) = true
  · rw [if_pos hk] at h
    simp only [List.mem_flatMap, List.mem_filter, List.mem_map, beq_iff_eq] at h
    obtain ⟨rfn, ⟨hrfn, _⟩, ale, ⟨hale, _⟩, ue, ⟨hue, _⟩, d, ⟨hd, _⟩, hm⟩ := h
    exact ⟨rfn, hrfn, ale, hale, ue, hue, by rw [← hm]; exact hd⟩
  · rw [if_neg hk] at h
    cases h

/-- What membership in the powershell pipeline-query matches at a node
implies: the destination comes from a `unary_expression` nested under the
command's `command_elements`. -/
theorem pwshPipelineMatchesAt_mem {n : Node} {m : PwshPipelineMatch}
    (h : m ∈ pwshPipelineMatchesAt n) :
    ∃ c ∈ n.namedChildren, ∃ ce ∈ c.namedChildren, ∃ ale ∈ ce.namedChildren,
      ∃ ue ∈ ale.namedChildren, m.dest ∈ pwshUnaryDestinations ue := by
  unfold pwshPipelineMatchesAt at h
  by_cases hk : n.kind = "pipeline"
  · rw [if_pos (by simp [hk])] at h
    simp only [List.mem_flatMap, List.mem_filter, List.mem_filterMap,
      Bool.and_eq_true, beq_iff_eq] at h
    obtain ⟨c, ⟨hc, _⟩, cn, ⟨hcn, _⟩, ce, ⟨hce, _⟩, ale, ⟨hale, _⟩, ue, ⟨hue, _⟩,
      d, hd, hsome⟩ := h
    by_cases htest : pwshCmdletTest cn.text = true ∧ pwshDestinationTest d.text = true
    · rw [if_pos htest] at hsome
      have hm := Option.some.inj hsome
      exact ⟨c, hc, ce, hce, ale, hale, ue, hue, by rw [← hm]; exact hd⟩
    · rw [if_neg htest] at hsome
      cases hsome
  · rw [if_neg (by simp [hk])] at h
    cases h

/-- The span-collection fold of `bash_uses_github_env` keeps exactly the
spans of the matches failing the static-echo exemption, in order. -/
theorem bashRedirectSpans_eq_filter (ms : List BashRedirectMatch) :
    bashRedirectSpans ms =
      (ms.filter fun m => m.cmd.text != "echo" || !bashEchoArgsAreSafe m.args).map
        (fun m => m.span.byteRange) := by
  have gen : ∀ (l : List BashRedirectMatch) (acc : List (Nat × Nat)),
      l.foldl (fun acc m =>
        if m.cmd.text != "echo" || !bashEchoArgsAreSafe m.args then
          acc ++ [m.span.byteRange] else acc) acc =
      acc ++ (l.filter fun m => m.cmd.text != "echo" || !bashEchoArgsAreSafe m.args).map
        (fun m => m.span.byteRange) := by
    intro l
    induction l with
    | nil => intro acc; simp
    | cons m l ih =>
      intro acc
      rw [List.foldl_cons, List.filter_cons]
      by_cases hm : (m.cmd.text != "echo" || !bashEchoArgsAreSafe m.args) = true
      · rw [if_pos hm, if_pos hm, ih]
        simp
      · rw [if_neg hm, if_neg hm, ih]
  simpa [bashRedirectSpans] using gen ms []

/-! ## The claims -/

/-- C1: for every bash tree, a redirect-query match is suppressed exactly
when its command-name capture is `echo` and every argument capture is
safe (a bare word, a single-quoted literal, or a node whose only named
child is a literal `string_content`); every other match is reported with
the span of the full redirected statement.  Stated as: the reported spans
are exactly the spans (the `redirected_statement` nodes) of the matches
whose command is not `echo` or whose arguments are not all safe, in
order; and the safety test means exactly the three argument shapes. -/
theorem bash_redirect_suppression (root : Node) :
    bashRedirectSpans (bashRedirectQuery root) =
      ((bashRedirectQuery root).filter fun m =>
        m.cmd.text != "echo" || !bashEchoArgsAreSafe m.args).map
        (fun m => m.span.byteRange) ∧
    ∀ m ∈ bashRedirectQuery root,
      m.span.kind = "redirected_statement" ∧
      (bashEchoArgsAreSafe m.args = true ↔
        ∀ a ∈ m.args, a.kind = "word" ∨ a.kind = "raw_string" ∨
          (a.namedChildren.length = 1 ∧
            (a.namedChildren.head?.map Node.kind) = some "string_content")) := by
  refine ⟨bashRedirectSpans_eq_filter _, ?_⟩
  intro m hm
  obtain ⟨n, _, hmn⟩ := List.mem_flatMap.mp hm
  obtain ⟨hspan, hkind, _, _⟩ := bashRedirectMatchesAt_mem hmn
  refine ⟨by rw [hspan]; exact hkind, ?_⟩
  simp only [bashEchoArgsAreSafe, List.all_eq_true, bashEchoArgIsSafe,
    Bool.or_eq_true, Bool.and_eq_true, beq_iff_eq]
  constructor
  · intro h a ha
    have := h a ha
    tauto
  · intro h a ha
    have := h a ha
    tauto

theorem bash_redirect_suppression_witness :
    bashRedirectSpans (bashRedirectQuery sampleBashUnsafeTree) = [(0, 24)] := by
  rw [(bash_redirect_suppression sampleBashUnsafeTree).1]
  decide

/-- C2: for every script body and every shell identifier outside
bash / sh / cmd / pwsh / powershell, the detection entry point returns
the successful result false together with a warning log that names the
unhandled interpreter, and leaves the audit object untouched. -/
theorem unsupported_shell_fails_open (g : GitHubEnv) (body shell : String)
    (h1 : shell ≠ "bash") (h2 : shell ≠ "sh") (h3 : shell ≠ "cmd")
    (h4 : shell ≠ "pwsh") (h5 : shell ≠ "powershell") :
    usesGithubEnv g body shell = (.ok false, [shellWarnMsg shell], g) ∧
    ∃ pre post, shellWarnMsg shell = pre ++ (shell ++ post) := by
  refine ⟨?_, squote, squote ++ " shell not supported when evaluating usage of GITHUB_ENV", rfl⟩
  simp [usesGithubEnv, h1, h2, h3, h4, h5]

theorem unsupported_shell_fails_open_witness :
    usesGithubEnv trivialGitHubEnv "echo hi" "python" =
      (.ok false, [shellWarnMsg "python"], trivialGitHubEnv) :=
  (unsupported_shell_fails_open trivialGitHubEnv "echo hi" "python"
    (by decide) (by decide) (by decide) (by decide) (by decide)).1

/-- C3 counterexample: the destination predicate of the bash redirect
query is the regex "GITHUB_ENV" with no case-insensitivity flag, so the
lower-case destination text of a redirect to the variable written as
lower-case `github_env` does not satisfy it, and the whole query produces
no match on such a script — the claim that the match is case-insensitive
fails at this input. -/
theorem bash_destination_lowercase_unmatched :
    bashDestinationTest "$github_env" = false ∧
    bashRedirectQuery sampleBashLowercaseTree = [] := by
  constructor
  · decide
  · decide

/-- C3 amended: the captured destination text is matched against the
sensitive variable name by a case-SENSITIVE substring search: the
predicate holds exactly when the exact upper-case name occurs
contiguously in the destination text. -/
theorem bash_destination_case_sensitive_substring (s : String) :
    bashDestinationTest s = true ↔
      ∃ a b, s.toList = a ++ String.toList "GITHUB_ENV" ++ b :=
  hasSubL_iff _ _

/-- C4: for every step of a workflow declaring neither dangerous trigger,
the step audit returns no findings, no logs, and an unchanged audit
object, whatever detection function would have been used and whatever the
step's body or shell is; in particular this holds for the real entry
point. -/
theorem no_dangerous_triggers_no_findings
    (detect : GitHubEnv → String → String → Except String Bool × List String × GitHubEnv)
    (g : GitHubEnv) (step : Step)
    (h1 : step.workflow.hasWorkflowRun = false)
    (h2 : step.workflow.hasPullRequestTarget = false) :
    auditStepWith detect g step = (.ok [], [], g) ∧
    auditStep g step = (.ok [], [], g) := by
  constructor
  · simp [auditStepWith, h1, h2]
  · simp [auditStep, auditStepWith, h1, h2]

theorem no_dangerous_triggers_no_findings_witness :
    auditStep trivialGitHubEnv sampleStepNoTriggers = (.ok [], [], trivialGitHubEnv) :=
  (no_dangerous_triggers_no_findings usesGithubEnv trivialGitHubEnv
    sampleStepNoTriggers rfl rfl).2

/-- C5: on a run step of a dangerously-triggered workflow with a resolved
shell, if detection answers true the step audit emits exactly the one
finding (severity High, confidence Low, a single primary location
narrowed to the `run` key with the fixed annotation), and if it answers
false the step audit emits no finding; the detection's logs and resulting
state pass through. -/
theorem run_step_single_finding (g gOut : GitHubEnv) (step : Step)
    (r sh : String) (logs : List String) (b : Bool)
    (hb : step.body = .run r) (hs : step.shellHint = some sh)
    (ht : (step.workflow.hasWorkflowRun || step.workflow.hasPullRequestTarget) = true)
    (hd : usesGithubEnv g r sh = (.ok b, logs, gOut)) :
    auditStep g step = (.ok (if b then [githubEnvFinding] else []), logs, gOut) ∧
    githubEnvFinding.severity = .high ∧
    githubEnvFinding.confidence = .low ∧
    githubEnvFinding.locations =
      [{ primary := true, keys := ["run"],
         annot := "GITHUB_ENV write may allow code execution" }] := by
  refine ⟨?_, rfl, rfl, rfl⟩
  unfold auditStep auditStepWith
  rw [ht]
  simp only [Bool.not_true, Bool.false_eq_true, if_false, hb, hs]
  rw [hd]
  cases b <;> simp

theorem run_step_single_finding_witness :
    auditStep trivialGitHubEnv sampleCmdStep =
      (.ok [githubEnvFinding], [], trivialGitHubEnv) ∧
    auditStep trivialGitHubEnv sampleCmdStepClean = (.ok [], [], trivialGitHubEnv) := by
  constructor
  · exact (run_step_single_finding trivialGitHubEnv trivialGitHubEnv sampleCmdStep
      "echo FOO=x >> %GITHUB_ENV%" "cmd" [] true rfl rfl rfl rfl).1
  · exact (run_step_single_finding trivialGitHubEnv trivialGitHubEnv sampleCmdStepClean
      "echo x >> GITHUB_ENV" "cmd" [] false rfl rfl rfl rfl).1

/-- C6 counterexample: the claim reads the command-interpreter pattern as
"a redirection operator followed eventually by the %GITHUB_ENV% token".
In the line below the operator is followed by further text before the
token, so the claim predicts a match; the regex requires only whitespace
and at most one double quote between the operator and the token, and
rejects the line. -/
theorem cmd_eventual_token_not_matched :
    hasSubL (String.toList ">> foo %GITHUB_ENV%")
      (String.toList "echo >> foo %GITHUB_ENV%") = true ∧
    githubEnvWriteCmdIsMatch "echo >> foo %GITHUB_ENV%" = false := by
  constructor
  · decide
  · decide

/-- The token fragment of the pattern matches exactly the lists headed by
a literal percent sign whose case-folded continuation starts with the
folded token tail. -/
theorem matchEnvTok_iff (x : List Char) :
    matchEnvTok x = true ↔
      ∃ rest, x = '%' :: rest ∧ startsWithL envTokenTail (listToLower rest) = true := by
  cases x with
  | nil => simp [matchEnvTok]
  | cons c r =>
    simp only [matchEnvTok, Bool.and_eq_true, beq_iff_eq]
    constructor
    · rintro ⟨hc, hs⟩
      exact ⟨r, by rw [hc], hs⟩
    · rintro ⟨rest, heq, hs⟩
      injection heq with h1 h2
      subst h1
      subst h2
      exact ⟨rfl, hs⟩

/-- The optional-quote-then-token fragment matches exactly the lists that
are the token preceded by at most one double quote. -/
theorem matchQuoteEnv_iff (x : List Char) :
    matchQuoteEnv x = true ↔
      ∃ quote rest, x = quote ++ '%' :: rest ∧ (quote = [] ∨ quote = ['"']) ∧
        startsWithL envTokenTail (listToLower rest) = true := by
  unfold matchQuoteEnv
  rw [Bool.or_eq_true]
  constructor
  · intro h
    rcases h with h | h
    · obtain ⟨rest, hx, hs⟩ := (matchEnvTok_iff x).mp h
      exact ⟨[], rest, by simpa using hx, Or.inl rfl, hs⟩
    · cases x with
      | nil => simp at h
      | cons c r =>
        simp only [Bool.and_eq_true, beq_iff_eq] at h
        obtain ⟨hc, hm⟩ := h
        obtain ⟨rest, hr, hs⟩ := (matchEnvTok_iff r).mp hm
        refine ⟨['"'], rest, ?_, Or.inr rfl, hs⟩
        rw [hc, hr]
        rfl
  · rintro ⟨quote, rest, hx, hq, hs⟩
    rcases hq with rfl | rfl
    · exact Or.inl ((matchEnvTok_iff x).mpr ⟨rest, by simpa using hx, hs⟩)
    · subst hx
      right
      simp only [List.cons_append, List.nil_append, beq_self_eq_true, Bool.true_and]
      exact (matchEnvTok_iff _).mpr ⟨rest, rfl, hs⟩

/-- The whitespace-quote-token fragment matches exactly the lists that
decompose into whitespace, at most one quote, and the token. -/
theorem matchAfterGt_iff (x : List Char) :
    matchAfterGt x = true ↔
      ∃ w2 quote rest, x = w2 ++ (quote ++ '%' :: rest) ∧
        (∀ c ∈ w2, isWsChar c = true) ∧ (quote = [] ∨ quote = ['"']) ∧
        startsWithL envTokenTail (listToLower rest) = true := by
  unfold matchAfterGt
  rw [List.any_eq_true]
  constructor
  · rintro ⟨p, hp, hcond⟩
    rw [Bool.and_eq_true] at hcond
    obtain ⟨hws, hq⟩ := hcond
    obtain ⟨quote, rest, hx2, hquote, hs⟩ := (matchQuoteEnv_iff p.2).mp hq
    refine ⟨p.1, quote, rest, ?_, List.all_eq_true.mp hws, hquote, hs⟩
    rw [← splits_sound hp, hx2]
  · rintro ⟨w2, quote, rest, hx, hws, hquote, hs⟩
    subst hx
    refine ⟨(w2, quote ++ '%' :: rest), splits_complete _ _, ?_⟩
    rw [Bool.and_eq_true]
    exact ⟨List.all_eq_true.mpr hws,
      (matchQuoteEnv_iff _).mpr ⟨quote, rest, rfl, hquote, hs⟩⟩

/-- The operator fragment matches exactly the lists headed by one or two
redirection signs followed by the whitespace-quote-token fragment. -/
theorem matchGt_iff (x : List Char) :
    matchGt x = true ↔
      ∃ sign w2 quote rest, x = sign ++ (w2 ++ (quote ++ '%' :: rest)) ∧
        (sign = ['>'] ∨ sign = ['>', '>']) ∧ (∀ c ∈ w2, isWsChar c = true) ∧
        (quote = [] ∨ quote = ['"']) ∧
        startsWithL envTokenTail (listToLower rest) = true := by
  constructor
  · intro h
    cases x with
    | nil => simp [matchGt] at h
    | cons c rest0 =>
      simp only [matchGt, Bool.and_eq_true, Bool.or_eq_true, beq_iff_eq] at h
      obtain ⟨hc, hdis⟩ := h
      subst hc
      rcases hdis with h1 | h2
      · obtain ⟨w2, quote, rest, hx, hws, hq, hs⟩ := (matchAfterGt_iff rest0).mp h1
        refine ⟨['>'], w2, quote, rest, ?_, Or.inl rfl, hws, hq, hs⟩
        rw [hx]
        rfl
      · cases rest0 with
        | nil => simp at h2
        | cons c2 rest2 =>
          simp only [Bool.and_eq_true, beq_iff_eq] at h2
          obtain ⟨hc2, hm⟩ := h2
          subst hc2
          obtain ⟨w2, quote, rest, hx, hws, hq, hs⟩ := (matchAfterGt_iff rest2).mp hm
          refine ⟨['>', '>'], w2, quote, rest, ?_, Or.inr rfl, hws, hq, hs⟩
          rw [hx]
          rfl
  · rintro ⟨sign, w2, quote, rest, hx, hsign, hws, hq, hs⟩
    have hafter : matchAfterGt (w2 ++ (quote ++ '%' :: rest)) = true :=
      (matchAfterGt_iff _).mpr ⟨w2, quote, rest, rfl, hws, hq, hs⟩
    rcases hsign with rfl | rfl
    · subst hx
      simp [matchGt, hafter]
    · subst hx
      simp [matchGt, hafter]

/-- The whole per-position pattern matches exactly the positions that
satisfy the spec-side `cmdLineSpec` decomposition. -/
theorem matchFromLineStart_iff (l : List Char) :
    matchFromLineStart l = true ↔ cmdLineSpec l := by
  unfold matchFromLineStart cmdLineSpec
  rw [List.any_eq_true]
  constructor
  · rintro ⟨p, hp, hcond⟩
    have hl := splits_sound hp
    simp only [Bool.and_eq_true] at hcond
    obtain ⟨⟨hne, hnn⟩, hany⟩ := hcond
    rw [List.any_eq_true] at hany
    obtain ⟨q, hq, hq2⟩ := hany
    have hp2 := splits_sound hq
    simp only [Bool.and_eq_true] at hq2
    obtain ⟨hws, hgt⟩ := hq2
    obtain ⟨sign, w2, quote, rest, hx, hsign, hws2, hquote, hs⟩ := (matchGt_iff q.2).mp hgt
    refine ⟨p.1, q.1, sign, w2, quote, rest, ?_, ?_, ?_,
      List.all_eq_true.mp hws, hsign, hws2, hquote, hs⟩
    · rw [← hl, ← hp2, hx]
    · intro hnil
      rw [hnil] at hne
      simp at hne
    · intro c hc
      have := List.all_eq_true.mp hnn c hc
      simpa using this
  · rintro ⟨pre, w1, sign, w2, quote, rest, hx, hpre, hnn, hw1, hsign, hw2, hquote, hs⟩
    subst hx
    refine ⟨(pre, w1 ++ (sign ++ (w2 ++ (quote ++ '%' :: rest)))), splits_complete _ _, ?_⟩
    simp only [Bool.and_eq_true]
    refine ⟨⟨?_, List.all_eq_true.mpr (fun c hc => by simpa using hnn c hc)⟩, ?_⟩
    · cases pre with
      | nil => exact absurd rfl hpre
      | cons c cs => rfl
    · rw [List.any_eq_true]
      refine ⟨(w1, sign ++ (w2 ++ (quote ++ '%' :: rest))), splits_complete _ _, ?_⟩
      simp only [Bool.and_eq_true]
      exact ⟨List.all_eq_true.mpr hw1,
        (matchGt_iff _).mpr ⟨sign, w2, quote, rest, rfl, hsign, hw2, hquote, hs⟩⟩

/-- C6 amended: detection for the command interpreter returns true
exactly when some line position (the string start or a position just
after a newline) carries at least one non-newline character, then
optional whitespace, then a redirection operator of one or two signs,
then optional whitespace, then at most one double quote, and then
immediately the %GITHUB_ENV% token, case-insensitive in its letters —
so any other text between the operator and the token defeats the match;
and every match requires a literal percent sign, so a line referencing
the bare name without the percent delimiters never matches. -/
theorem cmd_write_regex_characterized (s : String) :
    (githubEnvWriteCmdIsMatch s = true ↔ cmdSpecMatch s) ∧
    (githubEnvWriteCmdIsMatch s = true → '%' ∈ s.toList) := by
  constructor
  · unfold githubEnvWriteCmdIsMatch cmdSpecMatch
    rw [List.any_eq_true]
    constructor
    · rintro ⟨l, hl, hm⟩
      exact ⟨l, hl, (matchFromLineStart_iff l).mp hm⟩
    · rintro ⟨l, hl, hm⟩
      exact ⟨l, hl, (matchFromLineStart_iff l).mpr hm⟩
  · intro h
    exact githubEnvWriteCmd_requires_percent h

theorem cmd_write_regex_characterized_witness :
    cmdSpecMatch "echo x >> %GitHub_Env%" ∧
    ¬ cmdSpecMatch "echo >> foo %GITHUB_ENV%" := by
  constructor
  · exact (cmd_write_regex_characterized "echo x >> %GitHub_Env%").1.mp (by decide)
  · intro h
    have hm := (cmd_write_regex_characterized "echo >> foo %GITHUB_ENV%").1.mpr h
    have hf : githubEnvWriteCmdIsMatch "echo >> foo %GITHUB_ENV%" = false := by decide
    rw [hf] at hm
    exact Bool.noConfusion hm

/-- C7: when a powershell tree has a pipeline command whose command-name
capture passes the case-insensitive cmdlet test and whose argument list
yields a destination passing the case-insensitive env-reference test, the
detector reports usage (no safety exemption filters the match); both
tests are concretely case-insensitive on the three casings of Out-File
and on a mixed-case env reference, and are invariant under any
case-folding-equal replacement of their input. -/
theorem pwsh_case_insensitive_always_reported
    (tree p c cn ce ale ue d : Node)
    (hp : p ∈ tree.allNodes) (hpk : p.kind = "pipeline")
    (hc : c ∈ p.namedChildren) (hck : c.kind = "command")
    (hcn : cn ∈ c.namedChildren) (hcnf : cn.fieldInParent = some "command_name")
    (hcnk : cn.kind = "command_name")
    (hce : ce ∈ c.namedChildren) (hcef : ce.fieldInParent = some "command_elements")
    (hcek : ce.kind = "command_elements")
    (hale : ale ∈ ce.namedChildren) (halek : ale.kind = "array_literal_expression")
    (hue : ue ∈ ale.namedChildren) (huek : ue.kind = "unary_expression")
    (hd : d ∈ pwshUnaryDestinations ue)
    (hcmd : pwshCmdletTest cn.text = true)
    (hdest : pwshDestinationTest d.text = true) :
    pwshUsesGithubEnv (some tree) = .ok true ∧
    pwshCmdletTest "Out-File" = true ∧ pwshCmdletTest "out-file" = true ∧
    pwshCmdletTest "OUT-FILE" = true ∧
    pwshDestinationTest "$ENV:GitHub_Env" = true ∧
    (∀ s t : String, listToLower s.toList = listToLower t.toList →
      pwshCmdletTest s = pwshCmdletTest t ∧
      pwshDestinationTest s = pwshDestinationTest t) := by
  refine ⟨?_, by decide, by decide, by decide, by decide, ?_⟩
  · have hmem : ({ cmd := cn, dest := d, span := p } : PwshPipelineMatch) ∈
        pwshPipelineQuery tree := by
      unfold pwshPipelineQuery
      apply List.mem_flatMap.mpr
      refine ⟨p, hp, ?_⟩
      unfold pwshPipelineMatchesAt
      rw [if_pos (by simp [hpk])]
      refine List.mem_flatMap.mpr ⟨c, List.mem_filter.mpr ⟨hc, by simp [hck]⟩, ?_⟩
      refine List.mem_flatMap.mpr ⟨cn, List.mem_filter.mpr ⟨hcn, by simp [hcnf, hcnk]⟩, ?_⟩
      refine List.mem_flatMap.mpr ⟨ce, List.mem_filter.mpr ⟨hce, by simp [hcef, hcek]⟩, ?_⟩
      refine List.mem_flatMap.mpr ⟨ale, List.mem_filter.mpr ⟨hale, by simp [halek]⟩, ?_⟩
      refine List.mem_flatMap.mpr ⟨ue, List.mem_filter.mpr ⟨hue, by simp [huek]⟩, ?_⟩
      refine List.mem_filterMap.mpr ⟨d, hd, ?_⟩
      rw [if_pos (show (pwshCmdletTest cn.text && pwshDestinationTest d.text) = true by
        rw [hcmd, hdest]; rfl)]
    have hne : (pwshPipelineQuery tree).isEmpty = false := by
      cases hq : pwshPipelineQuery tree with
      | nil => rw [hq] at hmem; cases hmem
      | cons x l => simp [List.isEmpty]
    unfold pwshUsesGithubEnv
    cases hr : (pwshRedirectQuery tree).isEmpty <;> simp [hr, hne]
  · intro s t h
    constructor
    · simp only [pwshCmdletTest, h]
    · simp only [pwshDestinationTest, h]

theorem pwsh_case_insensitive_always_reported_witness :
    pwshUsesGithubEnv (some samplePwshPipelineTree) = .ok true :=
  (pwsh_case_insensitive_always_reported samplePwshPipelineTree pwshPipelineNode
    pwshCommandNode pwshCnNode pwshCeNode pwshAleNode pwshUeNode pwshVarNode
    (by decide) (by decide) (by decide) (by decide) (by decide) (by decide)
    (by decide) (by decide) (by decide) (by decide) (by decide) (by decide)
    (by decide) (by decide) (by decide) (by decide) (by decide)).1

/-- C8: detection is a pure function of script text and shell: its
result and logs do not depend on the parser-state components of the audit
object, the call leaves the grammar (parse functions) unchanged, and an
immediately repeated call on the state the first call returned yields the
same result. -/
theorem detection_stateless (g g2 : GitHubEnv) (body shell : String)
    (hb : g.parseBash = g2.parseBash) (hp : g.parsePwsh = g2.parsePwsh) :
    (usesGithubEnv g body shell).1 = (usesGithubEnv g2 body shell).1 ∧
    (usesGithubEnv g body shell).2.1 = (usesGithubEnv g2 body shell).2.1 ∧
    (usesGithubEnv g body shell).2.2.parseBash = g.parseBash ∧
    (usesGithubEnv g body shell).2.2.parsePwsh = g.parsePwsh ∧
    (usesGithubEnv (usesGithubEnv g body shell).2.2 body shell).1 =
      (usesGithubEnv g body shell).1 := by
  unfold usesGithubEnv
  by_cases h1 : (shell == "bash" || shell == "sh") = true
  · simp [h1, hb]
  · by_cases h2 : (shell == "cmd") = true
    · simp [h1, h2]
    · by_cases h3 : (shell == "pwsh" || shell == "powershell") = true
      · simp [h1, h2, h3, hp]
      · simp [h1, h2, h3]

theorem detection_stateless_witness :
    (usesGithubEnv trivialGitHubEnv "echo hi" "cmd").1 =
      (usesGithubEnv agedGitHubEnv "echo hi" "cmd").1 :=
  (detection_stateless trivialGitHubEnv agedGitHubEnv "echo hi" "cmd" rfl rfl).1

/-- C9: a bare literal identifier equal to the sensitive name, not a
variable reference, never produces a match in any dialect: a bash tree
with no expansion, simple-expansion or variable-name node yields no
spans; a powershell tree with no variable node yields false; and a cmd
script without a percent sign never matches the regex. -/
theorem bare_literal_never_matches
    (tb : Node)
    (hb : ∀ n ∈ tb.allNodes,
      n.kind ≠ "expansion" ∧ n.kind ≠ "simple_expansion" ∧ n.kind ≠ "variable_name")
    (tp : Node) (hv : ∀ n ∈ tp.allNodes, n.kind ≠ "variable")
    (s : String) (hs : ∀ c ∈ s.toList, c ≠ '%') :
    bashUsesGithubEnv (some tb) = .ok [] ∧
    pwshUsesGithubEnv (some tp) = .ok false ∧
    githubEnvWriteCmdIsMatch s = false := by
  have hred : bashRedirectQuery tb = [] := by
    apply List.eq_nil_iff_forall_not_mem.mpr
    intro m hm
    obtain ⟨n, hn, hmn⟩ := List.mem_flatMap.mp hm
    obtain ⟨hspan, hkind, ⟨fr, hfr, hfrk, hdmem⟩, hds⟩ := bashRedirectMatchesAt_mem hmn
    have hdall : m.dest ∈ tb.allNodes :=
      Node.namedChild_mem_allNodes (Node.namedChild_mem_allNodes hn hfr) hdmem
    simp only [bashDestShape, hasNamedChildOfKind, Bool.or_eq_true, Bool.and_eq_true,
      beq_iff_eq, List.any_eq_true] at hds
    rcases hds with ⟨hk, mid, hmid, vn, hvnm, hvnk⟩ | ⟨hk, vn, hvnm, hvnk⟩
    · have : vn ∈ tb.allNodes :=
        Node.namedChild_mem_allNodes (Node.namedChild_mem_allNodes hdall hmid) hvnm
      exact (hb vn this).2.2 hvnk
    · have : vn ∈ tb.allNodes := Node.namedChild_mem_allNodes hdall hvnm
      exact (hb vn this).2.2 hvnk
  have hpipe : bashPipelineQuery tb = [] := by
    apply List.eq_nil_iff_forall_not_mem.mpr
    intro m hm
    obtain ⟨n, hn, hmn⟩ := List.mem_flatMap.mp hm
    obtain ⟨hspan, hkind, ⟨c, hc, hck, hamem⟩, has⟩ := bashPipelineMatchesAt_mem hmn
    have haall : m.arg ∈ tb.allNodes :=
      Node.namedChild_mem_allNodes (Node.namedChild_mem_allNodes hn hc) hamem
    simp only [bashPipelineArgShape, hasNamedChildOfKind, Bool.or_eq_true,
      Bool.and_eq_true, beq_iff_eq, List.any_eq_true] at has
    rcases has with (⟨hk, mid, hmid, vn, hvnm, hvnk⟩ | hk) | hk
    · have : vn ∈ tb.allNodes :=
        Node.namedChild_mem_allNodes (Node.namedChild_mem_allNodes haall hmid) hvnm
      exact (hb vn this).2.2 hvnk
    · exact (hb m.arg haall).1 hk
    · exact (hb m.arg haall).2.1 hk
  have hqr : pwshRedirectQuery tp = [] := by
    apply List.eq_nil_iff_forall_not_mem.mpr
    intro m hm
    obtain ⟨n, hn, hmn⟩ := List.mem_flatMap.mp hm
    obtain ⟨rfn, hrfn, ale, hale, ue, hue, hd⟩ := pwshRedirectMatchesAt_mem hmn
    have hueall : ue ∈ tp.allNodes :=
      Node.namedChild_mem_allNodes
        (Node.namedChild_mem_allNodes (Node.namedChild_mem_allNodes hn hrfn) hale) hue
    obtain ⟨hdk, hdloc⟩ := pwshUnaryDestinations_mem hd
    rcases hdloc with hdm | ⟨sl, hsl, esl, hesl, hdm⟩
    · exact hv m.dest (Node.namedChild_mem_allNodes hueall hdm) hdk
    · exact hv m.dest
        (Node.namedChild_mem_allNodes
          (Node.namedChild_mem_allNodes (Node.namedChild_mem_allNodes hueall hsl) hesl) hdm)
        hdk
  have hqp : pwshPipelineQuery tp = [] := by
    apply List.eq_nil_iff_forall_not_mem.mpr
    intro m hm
    obtain ⟨n, hn, hmn⟩ := List.mem_flatMap.mp hm
    obtain ⟨c, hc, ce, hce, ale, hale, ue, hue, hd⟩ := pwshPipelineMatchesAt_mem hmn
    have hueall : ue ∈ tp.allNodes :=
      Node.namedChild_mem_allNodes
        (Node.namedChild_mem_allNodes
          (Node.namedChild_mem_allNodes (Node.namedChild_mem_allNodes hn hc) hce) hale) hue
    obtain ⟨hdk, hdloc⟩ := pwshUnaryDestinations_mem hd
    rcases hdloc with hdm | ⟨sl, hsl, esl, hesl, hdm⟩
    · exact hv m.dest (Node.namedChild_mem_allNodes hueall hdm) hdk
    · exact hv m.dest
        (Node.namedChild_mem_allNodes
          (Node.namedChild_mem_allNodes (Node.namedChild_mem_allNodes hueall hsl) hesl) hdm)
        hdk
  refine ⟨?_, ?_, ?_⟩
  · show Except.ok (bashRedirectSpans (bashRedirectQuery tb) ++
      (bashPipelineQuery tb).map (fun m => m.span.byteRange)) = Except.ok []
    rw [hred, hpipe]
    rfl
  · show (if !(pwshRedirectQuery tp).isEmpty then Except.ok true
      else if !(pwshPipelineQuery tp).isEmpty then Except.ok true else Except.ok false) =
      Except.ok false
    rw [hqr, hqp]
    rfl
  · cases hmatch : githubEnvWriteCmdIsMatch s with
    | false => rfl
    | true => exact absurd rfl (hs '%' (githubEnvWriteCmd_requires_percent hmatch))

theorem bare_literal_never_matches_witness :
    bashUsesGithubEnv (some sampleBashBareTree) = .ok [] ∧
    pwshUsesGithubEnv (some samplePwshBareTree) = .ok false ∧
    githubEnvWriteCmdIsMatch "echo x >> GITHUB_ENV" = false :=
  bare_literal_never_matches sampleBashBareTree (by decide) samplePwshBareTree
    (by decide) "echo x >> GITHUB_ENV" (by decide)

/-- C10: the pipeline-query command test is an unanchored substring
search for "tee": any pipeline command whose name merely contains it,
with an expansion-form argument whose text contains the sensitive name,
yields a reported span (the pipeline node, appended with no safety
exemption), and the bash detection entry point reports usage. -/
theorem bash_tee_substring_reported
    (tree p c cn a : Node)
    (hp : p ∈ tree.allNodes) (hpk : p.kind = "pipeline")
    (hc : c ∈ p.namedChildren) (hck : c.kind = "command")
    (hcn : cn ∈ c.namedChildren) (hcnf : cn.fieldInParent = some "name")
    (hcnk : cn.kind = "command_name")
    (ha : a ∈ c.namedChildren) (haf : a.fieldInParent = some "argument")
    (hak : a.kind = "expansion")
    (hcmd : bashTeeCmdTest cn.text = true)
    (harg : bashPipelineArgTest a.text = true)
    (g : GitHubEnv) (script : String) (hparse : g.parseBash script = some tree) :
    (∃ spans, bashUsesGithubEnv (some tree) = .ok spans ∧ p.byteRange ∈ spans) ∧
    (usesGithubEnv g script "bash").1 = .ok true := by
  have hmem : ({ cmd := cn, arg := a, span := p } : BashPipelineMatch) ∈
      bashPipelineQuery tree := by
    unfold bashPipelineQuery
    apply List.mem_flatMap.mpr
    refine ⟨p, hp, ?_⟩
    unfold bashPipelineMatchesAt
    rw [if_pos (by simp [hpk])]
    refine List.mem_flatMap.mpr ⟨c, List.mem_filter.mpr ⟨hc, by simp [hck]⟩, ?_⟩
    refine List.mem_flatMap.mpr ⟨cn, List.mem_filter.mpr ⟨hcn, by simp [hcnf, hcnk]⟩, ?_⟩
    refine List.mem_filterMap.mpr ⟨a, List.mem_filter.mpr ⟨ha, ?_⟩, ?_⟩
    · simp [haf, bashPipelineArgShape, hak]
    · rw [if_pos (show (bashTeeCmdTest cn.text && bashPipelineArgTest a.text) = true by
        rw [hcmd, harg]; rfl)]
  have hspanmem : p.byteRange ∈ bashRedirectSpans (bashRedirectQuery tree) ++
      (bashPipelineQuery tree).map (fun m => m.span.byteRange) :=
    List.mem_append.mpr (Or.inr (List.mem_map.mpr ⟨_, hmem, rfl⟩))
  refine ⟨⟨_, rfl, hspanmem⟩, ?_⟩
  have hcond : (("bash" == "bash") || ("bash" == "sh")) = true := rfl
  unfold usesGithubEnv
  rw [if_pos hcond]
  show (bashUsesGithubEnv (g.parseBash script)).map (fun r => !r.isEmpty) = Except.ok true
  rw [hparse]
  show Except.ok (!(bashRedirectSpans (bashRedirectQuery tree) ++
      (bashPipelineQuery tree).map (fun m => m.span.byteRange)).isEmpty) = Except.ok true
  have hne : (bashRedirectSpans (bashRedirectQuery tree) ++
      (bashPipelineQuery tree).map (fun m => m.span.byteRange)).isEmpty = false := by
    cases hl : bashRedirectSpans (bashRedirectQuery tree) ++
        (bashPipelineQuery tree).map (fun m => m.span.byteRange) with
    | nil => rw [hl] at hspanmem; cases hspanmem
    | cons x l => rfl
  rw [hne]
  rfl

theorem bash_tee_substring_reported_witness :
    (usesGithubEnv teexGitHubEnv "something | teex \x24{GITHUB_ENV}" "bash").1 = .ok true :=
  (bash_tee_substring_reported sampleBashTeexTree teexPipelineNode teexCommandNode
    teexCmdNameNode teexArgNode
    (by decide) (by decide) (by decide) (by decide) (by decide) (by decide)
    (by decide) (by decide) (by decide) (by decide) (by decide) (by decide)
    teexGitHubEnv "something | teex \x24{GITHUB_ENV}" rfl).2

end GithubEnvAudit
